import Mathlib

/-!
Verification of the task-orchestration engine of `data_pipeline.py`
(`TaskStatus`, `Task`, `DAGRun`, `Pipeline` with `_get_execution_order` and
`run`).  The Python code is shallowly embedded: dictionaries become
insertion-ordered association lists, `datetime.now()` becomes a monotone
`Nat` clock threaded through the computation, and a task's callable (an
effectful Python function that may raise on some invocations and return on
others) becomes a pure function from the attempt index and the shared
context to `Except String α`.  `print` calls and the positional
`args`/keyword `kwargs` of a task (which are closed over by the callable
and never inspected by the engine) are not modelled.
-/

namespace DataPipeline

/-- Embeds the Python enum `TaskStatus`. -/
inductive TaskStatus where
  | pending
  | running
  | success
  | failed
  | skipped
deriving DecidableEq

/-- Embeds the Python dataclass `Task`.  `callable` takes the attempt index
(how many invocations this run already made for this task) and the shared
context, returning a result or an error text; `retries` is the Python
`retries` field (the total number of attempts made by `run`,
default 3).  `retry_delay` only feeds a `sleep` and is not modelled. -/
structure Task (α : Type) where
  task_id : String
  callable : Nat → List (String × α) → Except String α
  dependencies : List String := []
  retries : Nat := 3
  status : TaskStatus := TaskStatus.pending
  result : Option α := none
  error : Option String := none
  started_at : Option Nat := none
  completed_at : Option Nat := none

/-- Embeds the Python dataclass `DAGRun`. -/
structure DAGRun (α : Type) where
  run_id : String
  dag_id : String
  start_time : Nat
  end_time : Option Nat := none
  status : TaskStatus := TaskStatus.pending
  tasks : List (String × Task α) := []

/-- Embeds the Python class `Pipeline` (its `dag_id`, `tasks` dict and
`runs` list). -/
structure Pipeline (α : Type) where
  dag_id : String
  tasks : List (String × Task α) := []
  runs : List (DAGRun α) := []

variable {α : Type}

/-- Python dict assignment `d[k] = v`: replaces the value at an existing
key in place (keeping its position), otherwise appends the new binding. -/
def dictSet (l : List (String × Task α)) (k : String) (v : Task α) :
    List (String × Task α) :=
  if l.any (fun pr => pr.1 == k) then
    l.map (fun pr => if pr.1 == k then (k, v) else pr)
  else
    l ++ [(k, v)]

/-- Embeds `Pipeline.add_task` (construction of a `Task` followed by
`self.tasks[task_id] = task`). -/
def addTask (p : Pipeline α) (t : Task α) : Pipeline α :=
  { p with tasks := dictSet p.tasks t.task_id t }

/-- Embeds the inner `visit` closure of `Pipeline._get_execution_order`.
The state is the pair (visited, order).  Python's unbounded recursion is
modelled with a fuel parameter; `_get_execution_order` passes fuel
`tasks.length + 1`, which is shown below to exceed the depth of every
nested chain of non-returning calls (each such call marks one previously
unvisited registered id as visited), so the fuel-exhausted branch is
unreachable and the function agrees with the Python recursion. -/
def visit (tasks : List (String × Task α)) :
    Nat → String → List String × List String → List String × List String
  | 0, _, st => st
  | fuel + 1, task_id, (visited, order) =>
    if task_id ∈ visited then
      (visited, order)
    else
      let visited := task_id :: visited
      match tasks.lookup task_id with
      | none => (visited, order)
      | some task =>
        let st := task.dependencies.foldl
          (fun st dep => visit tasks fuel dep st) (visited, order)
        (st.1, st.2 ++ [task_id])

/-- The body of `Pipeline._get_execution_order`: visit every registered id
in registration order, sharing the visited set, and return `order`. -/
def execOrderAux (tasks : List (String × Task α)) : List String :=
  (tasks.foldl (fun st pr => visit tasks (tasks.length + 1) pr.1 st)
    ([], [])).2

/-- Embeds `Pipeline._get_execution_order`. -/
def getExecutionOrder (p : Pipeline α) : List String :=
  execOrderAux p.tasks

/-- Embeds `Task(**{**v.__dict__})` in `Pipeline.run`: a fresh `Task`
built from all fields of `v`. -/
def copyTask (t : Task α) : Task α :=
  { task_id := t.task_id, callable := t.callable,
    dependencies := t.dependencies, retries := t.retries,
    status := t.status, result := t.result, error := t.error,
    started_at := t.started_at, completed_at := t.completed_at }

/-- Embeds the dependency gate
`all(dag_run.tasks[dep].status == TaskStatus.SUCCESS for dep in deps)`:
the generator is evaluated left to right, raises `KeyError` on the first
unknown id, and stops at the first dependency that is not `SUCCESS`. -/
def depsGate (tasks : List (String × Task α)) :
    List String → Except String Bool
  | [] => Except.ok true
  | dep :: rest =>
    match tasks.lookup dep with
    | none => Except.error ("KeyError: " ++ dep)
    | some d =>
      if d.status = TaskStatus.success then depsGate tasks rest
      else Except.ok false

/-- Embeds the retry loop `for attempt in range(task.retries)` of
`Pipeline.run`.  `attempt` is the current attempt index and the second
argument the number of attempts still allowed; on success the task gets
its result, `SUCCESS` and a completion time; on a failure the error text
is recorded and, when further attempts remain (Python's
`attempt < task.retries - 1`), the loop retries, otherwise the task is
marked `FAILED` with a completion time. -/
def runAttempts (ctx : List (String × α)) :
    Task α → Nat → Nat → Nat → Task α × Nat
  | t, _, 0, clock => (t, clock)
  | t, attempt, remaining + 1, clock =>
    match t.callable attempt ctx with
    | Except.ok result =>
      ({ t with result := some result, status := TaskStatus.success,
                completed_at := some clock }, clock + 1)
    | Except.error e =>
      let t := { t with error := some e }
      if remaining = 0 then
        ({ t with status := TaskStatus.failed,
                  completed_at := some clock }, clock + 1)
      else
        runAttempts ctx t (attempt + 1) remaining clock

/-- One iteration of the main loop of `Pipeline.run` for id `task_id`:
look the task up in `dag_run.tasks` (a raised `KeyError` is an
`Except.error`), evaluate the dependency gate, and either mark the task
`SKIPPED` or run it with retries, writing the mutated task back. -/
def processTask (tasks : List (String × Task α)) (ctx : List (String × α))
    (task_id : String) (clock : Nat) :
    Except String (List (String × Task α) × Nat) :=
  match tasks.lookup task_id with
  | none => Except.error ("KeyError: " ++ task_id)
  | some task =>
    match depsGate tasks task.dependencies with
    | Except.error e => Except.error e
    | Except.ok false =>
      Except.ok (dictSet tasks task_id
        { task with status := TaskStatus.skipped }, clock)
    | Except.ok true =>
      let task := { task with status := TaskStatus.running,
                              started_at := some clock }
      let clock := clock + 1
      let r := runAttempts ctx task 0 task.retries clock
      Except.ok (dictSet tasks task_id r.1, r.2)

/-- The main loop `for task_id in execution_order` of `Pipeline.run`. -/
def runLoop (ctx : List (String × α)) :
    List String → List (String × Task α) → Nat →
    Except String (List (String × Task α) × Nat)
  | [], tasks, clock => Except.ok (tasks, clock)
  | task_id :: rest, tasks, clock =>
    match processTask tasks ctx task_id clock with
    | Except.error e => Except.error e
    | Except.ok st => runLoop ctx rest st.1 st.2

/-- Embeds `Pipeline.run`.  Returns the `DAGRun` together with the updated
`Pipeline` (`self` after `self.runs.append(dag_run)`); a `KeyError`
escaping the loop is an `Except.error`.  Note that, exactly as in the
source, the shared `context` is passed to every callable but never
extended with task results. -/
def runPipeline (p : Pipeline α) (context : List (String × α))
    (clock : Nat) : Except String (DAGRun α × Pipeline α) :=
  let run_id := p.dag_id ++ "_" ++ toString clock
  let clock := clock + 1
  let start_time := clock
  let clock := clock + 1
  let tasks0 := p.tasks.map (fun pr => (pr.1, copyTask pr.2))
  let order := getExecutionOrder p
  match runLoop context order tasks0 clock with
  | Except.error e => Except.error e
  | Except.ok (fin, clock) =>
    let end_time := clock
    let status :=
      if fin.all (fun pr => pr.2.status == TaskStatus.success ||
          pr.2.status == TaskStatus.skipped) then
        TaskStatus.success
      else TaskStatus.failed
    let dag_run : DAGRun α :=
      { run_id := run_id, dag_id := p.dag_id, start_time := start_time,
        end_time := some end_time, status := status, tasks := fin }
    Except.ok (dag_run, { p with runs := p.runs ++ [dag_run] })

/-- Final status of task `tid` after `run()`, `none` if `run()` raised or
the id is unknown. -/
def taskStatusAfter (p : Pipeline α) (ctx : List (String × α)) (c : Nat)
    (tid : String) : Option TaskStatus :=
  match runPipeline p ctx c with
  | Except.ok (dr, _) => (dr.tasks.lookup tid).map Task.status
  | Except.error _ => none

/-- Final `result` field of task `tid` after `run()`. -/
def taskResultAfter (p : Pipeline α) (ctx : List (String × α)) (c : Nat)
    (tid : String) : Option (Option α) :=
  match runPipeline p ctx c with
  | Except.ok (dr, _) => (dr.tasks.lookup tid).map Task.result
  | Except.error _ => none

/-- Final `error` field of task `tid` after `run()`. -/
def taskErrorAfter (p : Pipeline α) (ctx : List (String × α)) (c : Nat)
    (tid : String) : Option (Option String) :=
  match runPipeline p ctx c with
  | Except.ok (dr, _) => (dr.tasks.lookup tid).map Task.error
  | Except.error _ => none

/-- Overall status of the `DAGRun` produced by `run()`. -/
def overallAfter (p : Pipeline α) (ctx : List (String × α)) (c : Nat) :
    Option TaskStatus :=
  match runPipeline p ctx c with
  | Except.ok (dr, _) => some dr.status
  | Except.error _ => none

/-- The error text raised out of `run()`, if any. -/
def runErrorOf (p : Pipeline α) (ctx : List (String × α)) (c : Nat) :
    Option String :=
  match runPipeline p ctx c with
  | Except.ok _ => none
  | Except.error e => some e

/-- `a` lists `b` among its dependencies (via the dict lookup
`self.tasks.get(a)`). -/
def Dep (tasks : List (String × Task α)) (a b : String) : Prop :=
  ∃ t, tasks.lookup a = some t ∧ b ∈ t.dependencies

/-- `k` names a registered task. -/
def IsKey (tasks : List (String × Task α)) (k : String) : Prop :=
  ∃ t, tasks.lookup k = some t

/-- The dependency graph has no cycle: no id is reachable from itself
along its own dependency chain. -/
def Acyclic (tasks : List (String × Task α)) : Prop :=
  ∀ a, ¬ Relation.TransGen (Dep tasks) a a

/-- Every dependency id of every registered task names a registered
task. -/
def ClosedDeps (tasks : List (String × Task α)) : Prop :=
  ∀ a b, Dep tasks a b → IsKey tasks b

/-- `o` is topologically sorted: each element's direct dependencies occur
strictly earlier in `o`. -/
def TopoList (tasks : List (String × Task α)) (o : List String) : Prop :=
  ∀ i (h : i < o.length) d, Dep tasks o[i] d → d ∈ o.take i

/-- `x` occurs at a strictly earlier position than `y` in `l`. -/
def Before (l : List String) (x y : String) : Prop :=
  ∃ i j, i < j ∧ l.get? i = some x ∧ l.get? j = some y

/-- Decidable check for `ClosedDeps`. -/
def closedB (tasks : List (String × Task α)) : Bool :=
  tasks.all (fun pr =>
    pr.2.dependencies.all (fun d => (tasks.lookup d).isSome))

/-- Number of registered entries whose key is not yet visited; the fuel
measure of `visit`. -/
def countFree (tasks : List (String × Task α)) (v : List String) : Nat :=
  (tasks.filter (fun pr => decide (pr.1 ∉ v))).length

/-- The state invariant carried through `visit`: `order ⊆ visited`, the
order has no duplicates, lists only registered ids, and every visited
registered id is either already emitted or on the stack `S` of ids whose
dependency fold is still in progress. -/
structure VisitIn (tasks : List (String × Task α)) (S v o : List String) :
    Prop where
  sub : ∀ x, x ∈ o → x ∈ v
  nd : o.Nodup
  keys : ∀ x, x ∈ o → IsKey tasks x
  acc : ∀ x, x ∈ v → IsKey tasks x → x ∈ o ∨ x ∈ S

/-- Relation between the state before and after a call of `visit` (or a
sequence of such calls) at stack `S`. -/
structure VisitOut (tasks : List (String × Task α))
    (S v o v' o' : List String) : Prop where
  mono : ∀ x, x ∈ v → x ∈ v'
  omono : ∀ x, x ∈ o → x ∈ o'
  fresh : ∀ x, x ∈ o' → x ∈ o ∨ x ∉ v
  sub : ∀ x, x ∈ o' → x ∈ v'
  nd : o'.Nodup
  keys : ∀ x, x ∈ o' → IsKey tasks x
  acc : ∀ x, x ∈ v' → IsKey tasks x → x ∈ o' ∨ x ∈ S


section ConcretePipelines

/-- A task whose body always succeeds with value `v`. -/
def constTask (id : String) (deps : List String) (v : Nat) : Task Nat :=
  { task_id := id, callable := fun _ _ => Except.ok v,
    dependencies := deps }

/-- The dependency shape of `create_daily_pipeline`. -/
def PDaily : Pipeline Nat :=
  { dag_id := "daily_earnings_update",
    tasks :=
      [("fetch_earnings", constTask "fetch_earnings" [] 1),
       ("calculate_metrics",
         constTask "calculate_metrics" ["fetch_earnings"] 2),
       ("store_results", constTask "store_results" ["calculate_metrics"] 3),
       ("generate_alerts",
         constTask "generate_alerts" ["calculate_metrics"] 4)] }

/-- A task with a given id, dependency list, retry budget and body. -/
def mkTask (id : String) (deps : List String) (n : Nat)
    (body : Nat → List (String × Nat) → Except String Nat) : Task Nat :=
  { task_id := id, callable := body, dependencies := deps, retries := n }

/-- A two-task cycle `A depends on B, B depends on A` plus an independent
task `C` whose body succeeds with 7. -/
def PCycle : Pipeline Nat :=
  { dag_id := "cyc",
    tasks := [("A", constTask "A" ["B"] 0), ("B", constTask "B" ["A"] 0),
              ("C", constTask "C" [] 7)] }

/-- A pipeline whose second task names the unregistered dependency
`ghost`. -/
def PGhost : Pipeline Nat :=
  { dag_id := "ghost",
    tasks := [("t1", constTask "t1" [] 1),
              ("t2", constTask "t2" ["ghost"] 2)] }

/-- Two chained tasks where the downstream body reads its upstream
result from the shared context under the upstream id. -/
def PCtx : Pipeline Nat :=
  { dag_id := "ctx",
    tasks := [("t1", constTask "t1" [] 1),
              ("t2", mkTask "t2" ["t1"] 1 (fun _ ctx =>
                match ctx.lookup "t1" with
                | some v => Except.ok v
                | none => Except.error "missing t1"))] }

/-- A single task that fails its first attempt and succeeds on the
retry. -/
def PRetry : Pipeline Nat :=
  { dag_id := "retry",
    tasks := [("t", mkTask "t" [] 2 (fun i _ =>
      if i = 0 then Except.error "boom0" else Except.ok 5))] }

/-- A single task with `retries = 2` whose body fails on every attempt,
with a per-attempt error text. -/
def PExhaust : Pipeline Nat :=
  { dag_id := "exh",
    tasks := [("t", mkTask "t" [] 2 (fun i _ =>
      Except.error ("boom" ++ toString i)))] }

/-- The skip-propagation scenario: `A` always fails, `B` depends on `A`,
`C` depends on `B`. -/
def PChain : Pipeline Nat :=
  { dag_id := "abc",
    tasks := [("A", mkTask "A" [] 1 (fun _ _ => Except.error "afail")),
              ("B", constTask "B" ["A"] 0),
              ("C", constTask "C" ["B"] 0)] }

/-- Rank certificate for the acyclicity of `PChain`. -/
def rankChain (s : String) : Nat :=
  if s = "B" then 1 else if s = "C" then 2 else 0

/-- Rank certificate for the acyclicity of `PDaily`. -/
def rankDaily (s : String) : Nat :=
  if s = "fetch_earnings" then 0
  else if s = "calculate_metrics" then 1
  else 2

end ConcretePipelines

/-- The state of a task the moment its gate passed: `RUNNING` with
`started_at` recorded (lines 129-130 of the source). -/
def startRun (t : Task α) (c : Nat) : Task α :=
  { t with status := TaskStatus.running, started_at := some c }

/-- The state written for a task whose gate failed: `SKIPPED`. -/
def skipTask (t : Task α) : Task α :=
  { t with status := TaskStatus.skipped }

section LookupLemmas

theorem lookup_cons_self {l : List (String × Task α)} {k : String}
    {t : Task α} : ((k, t) :: l).lookup k = some t := by
  simp [List.lookup_cons]

theorem lookup_cons_ne {l : List (String × Task α)} {k k' : String}
    {t : Task α} (h : k ≠ k') : ((k', t) :: l).lookup k = l.lookup k := by
  rw [List.lookup_cons, beq_eq_false_iff_ne.mpr h]

theorem lookup_mem {l : List (String × Task α)} {k : String} {t : Task α}
    (h : l.lookup k = some t) : (k, t) ∈ l := by
  induction l with
  | nil => simp [List.lookup] at h
  | cons pr rest ih =>
    obtain ⟨k', t'⟩ := pr
    by_cases hk : k = k'
    · subst hk
      rw [lookup_cons_self] at h
      obtain rfl : t' = t := by simpa using h
      exact List.mem_cons_self _ _
    · rw [lookup_cons_ne hk] at h
      exact List.mem_cons_of_mem _ (ih h)

theorem isKey_of_lookup {l : List (String × Task α)} {k : String}
    {t : Task α} (h : l.lookup k = some t) : IsKey l k := ⟨t, h⟩

theorem isKey_iff_mem_keys {l : List (String × Task α)} {k : String} :
    IsKey l k ↔ k ∈ l.map Prod.fst := by
  induction l with
  | nil => simp [IsKey, List.lookup]
  | cons pr rest ih =>
    obtain ⟨k', t'⟩ := pr
    by_cases hk : k = k'
    · subst hk
      simp [IsKey, lookup_cons_self]
    · constructor
      · rintro ⟨t, ht⟩
        rw [lookup_cons_ne hk] at ht
        exact List.mem_cons_of_mem _ (ih.mp ⟨t, ht⟩)
      · intro hm
        rcases List.mem_cons.mp hm with h | h
        · exact absurd h hk
        · rcases ih.mpr h with ⟨t, ht⟩
          exact ⟨t, by rw [lookup_cons_ne hk]; exact ht⟩

theorem closedDeps_of_closedB {tasks : List (String × Task α)}
    (h : closedB tasks = true) : ClosedDeps tasks := by
  rintro a b ⟨t, hl, hb⟩
  have hmem := lookup_mem hl
  have := List.all_eq_true.mp h _ hmem
  have hb' := List.all_eq_true.mp this _ hb
  rcases Option.isSome_iff_exists.mp hb' with ⟨t', ht'⟩
  exact ⟨t', ht'⟩

theorem lookup_map_replace (l : List (String × Task α)) (k tid : String)
    (v : Task α) :
    (l.map (fun pr => if pr.1 == tid then (tid, v) else pr)).lookup k =
      if k = tid then
        (if l.any (fun pr => pr.1 == tid) then some v else none)
      else l.lookup k := by
  induction l with
  | nil => by_cases hk : k = tid <;> simp [List.lookup, hk]
  | cons pr rest ih =>
    obtain ⟨k', t'⟩ := pr
    by_cases hk' : k' = tid
    · subst hk'
      simp only [List.map_cons, beq_self_eq_true, if_true, List.any_cons,
        Bool.true_or]
      by_cases hkk : k = k'
      · subst hkk
        rw [lookup_cons_self]
        simp
      · rw [lookup_cons_ne hkk, lookup_cons_ne hkk, ih, if_neg hkk,
          if_neg hkk]
    · have h2 : (k' == tid) = false := beq_eq_false_iff_ne.mpr hk'
      simp only [List.map_cons, h2, Bool.false_eq_true, if_false,
        List.any_cons, Bool.false_or]
      by_cases hkk : k = k'
      · subst hkk
        rw [lookup_cons_self, lookup_cons_self, if_neg hk']
      · rw [lookup_cons_ne hkk, lookup_cons_ne hkk]
        exact ih

theorem lookup_append_single (l : List (String × Task α)) (k tid : String)
    (v : Task α) :
    (l ++ [(tid, v)]).lookup k =
      match l.lookup k with
      | some t => some t
      | none => if k = tid then some v else none := by
  induction l with
  | nil =>
    by_cases hk : k = tid <;>
      simp [List.lookup, hk, beq_eq_false_iff_ne.mpr, beq_iff_eq]
  | cons pr rest ih =>
    obtain ⟨k', t'⟩ := pr
    rw [List.cons_append]
    by_cases hkk : k = k'
    · subst hkk
      rw [lookup_cons_self, lookup_cons_self]
    · rw [lookup_cons_ne hkk, lookup_cons_ne hkk]
      exact ih

theorem any_key_iff {l : List (String × Task α)} {tid : String} :
    l.any (fun pr => pr.1 == tid) = true ↔ IsKey l tid := by
  rw [isKey_iff_mem_keys]
  constructor
  · rintro h
    rcases List.any_eq_true.mp h with ⟨pr, hpr, hb⟩
    exact List.mem_map.mpr ⟨pr, hpr, by simpa using hb⟩
  · intro h
    rcases List.mem_map.mp h with ⟨pr, hpr, hfst⟩
    exact List.any_eq_true.mpr ⟨pr, hpr, by simp [hfst]⟩

theorem lookup_eq_none_of_not_isKey {l : List (String × Task α)}
    {tid : String} (h : ¬ IsKey l tid) : l.lookup tid = none := by
  cases hl : l.lookup tid with
  | none => rfl
  | some t => exact absurd ⟨t, hl⟩ h

theorem lookup_dictSet (l : List (String × Task α)) (k tid : String)
    (v : Task α) :
    (dictSet l tid v).lookup k =
      if k = tid then some v else l.lookup k := by
  rw [dictSet]
  by_cases hany : l.any (fun pr => pr.1 == tid) = true
  · rw [if_pos hany, lookup_map_replace, hany]
    by_cases hk : k = tid <;> simp [hk]
  · rw [if_neg hany, lookup_append_single]
    have hnk : ¬ IsKey l tid := fun h => hany (any_key_iff.mpr h)
    by_cases hk : k = tid
    · subst hk
      rw [lookup_eq_none_of_not_isKey hnk]
    · cases hl : l.lookup k <;> simp [hk]

theorem keys_dictSet_of_isKey {l : List (String × Task α)} {tid : String}
    {v : Task α} (h : IsKey l tid) :
    (dictSet l tid v).map Prod.fst = l.map Prod.fst := by
  rw [dictSet, if_pos (any_key_iff.mpr h), List.map_map]
  apply List.map_congr_left
  intro pr _
  by_cases hpr : pr.1 == tid
  · simp only [Function.comp_apply, hpr, if_true]
    simpa using (beq_iff_eq.mp hpr).symm
  · have : pr.1 ≠ tid := by simpa using hpr
    simp [Function.comp_apply, this]

theorem lookup_of_mem_of_nodup {l : List (String × Task α)} {k : String}
    {t : Task α} (hnd : (l.map Prod.fst).Nodup) (hm : (k, t) ∈ l) :
    l.lookup k = some t := by
  induction l with
  | nil => simp at hm
  | cons pr rest ih =>
    obtain ⟨k', t'⟩ := pr
    simp only [List.map_cons, List.nodup_cons] at hnd
    rcases List.mem_cons.mp hm with h | h
    · obtain ⟨rfl, rfl⟩ := Prod.mk.injEq .. ▸ h
      simp [List.lookup_cons]
    · rw [List.lookup_cons]
      have hne : k ≠ k' := by
        rintro rfl
        exact hnd.1 (List.mem_map.mpr ⟨(k, t), h, rfl⟩)
      rw [beq_eq_false_iff_ne.mpr hne]
      exact ih hnd.2 h

end LookupLemmas

section FuelLemmas

theorem countFree_mono (tasks : List (String × Task α))
    {v v' : List String} (h : ∀ x, x ∈ v → x ∈ v') :
    countFree tasks v' ≤ countFree tasks v := by
  unfold countFree
  apply List.Sublist.length_le
  apply List.monotone_filter_right
  intro pr hpr
  simp only [decide_eq_true_eq] at hpr ⊢
  exact fun hv => hpr (h _ hv)

theorem countFree_lt (tasks : List (String × Task α)) {tid : String}
    {v : List String} (hk : IsKey tasks tid) (hv : tid ∉ v) :
    countFree tasks (tid :: v) < countFree tasks v := by
  have hm : tid ∈ tasks.map Prod.fst := isKey_iff_mem_keys.mp hk
  clear hk
  induction tasks with
  | nil => simp at hm
  | cons pr rest ih =>
    unfold countFree
    rw [List.filter_cons, List.filter_cons]
    by_cases hpr : pr.1 = tid
    · have h1 : decide (pr.1 ∉ tid :: v) = false := by simp [hpr]
      have h2 : decide (pr.1 ∉ v) = true := by simp [hpr, hv]
      rw [h1, h2]
      simp only [Bool.false_eq_true, if_false, if_true, List.length_cons]
      exact Nat.lt_succ_of_le (countFree_mono rest
        (fun x hx => List.mem_cons_of_mem _ hx))
    · have hmem : tid ∈ rest.map Prod.fst := by
        rcases List.mem_cons.mp (List.map_cons _ _ _ ▸ hm) with h | h
        · exact absurd h.symm hpr
        · exact h
      have hstep := ih hmem
      unfold countFree at hstep
      have h1 : decide (pr.1 ∉ tid :: v) = decide (pr.1 ∉ v) := by
        simp only [decide_eq_decide, List.mem_cons]
        tauto
      rw [h1]
      cases hd : decide (pr.1 ∉ v) <;>
        simp only [Bool.false_eq_true, if_false, if_true,
          List.length_cons] <;> omega

theorem countFree_le_length (tasks : List (String × Task α))
    (v : List String) : countFree tasks v ≤ tasks.length := by
  unfold countFree
  exact List.length_filter_le _ _

end FuelLemmas

section TopoLemmas

theorem topoList_nil (tasks : List (String × Task α)) :
    TopoList tasks [] := by
  intro i h
  simp at h

theorem topoList_append_single {tasks : List (String × Task α)}
    {o : List String} {tid : String} (ht : TopoList tasks o)
    (hd : ∀ d, Dep tasks tid d → d ∈ o) :
    TopoList tasks (o ++ [tid]) := by
  intro i h d hdep
  rcases Nat.lt_or_ge i o.length with hi | hi
  · have he : (o ++ [tid])[i] = o[i] := List.getElem_append_left hi
    rw [he] at hdep
    have := ht i hi d hdep
    rw [List.take_append_eq_append_take, Nat.sub_eq_zero_of_le
      (Nat.le_of_lt hi), List.take_zero, List.append_nil]
    exact this
  · have hlen : i < o.length + 1 := by simpa using h
    have hieq : i = o.length := Nat.le_antisymm (Nat.lt_succ_iff.mp hlen) hi
    subst hieq
    have he : (o ++ [tid])[o.length] = tid := by
      rw [List.getElem_append_right (Nat.le_refl _)]
      simp
    rw [he] at hdep
    rw [List.take_append_eq_append_take, Nat.sub_self, List.take_zero,
      List.append_nil, List.take_of_length_le (Nat.le_refl _)]
    exact hd d hdep

end TopoLemmas

theorem VisitOut.toIn {tasks : List (String × Task α)}
    {S v o v' o' : List String} (h : VisitOut tasks S v o v' o') :
    VisitIn tasks S v' o' :=
  ⟨h.sub, h.nd, h.keys, h.acc⟩

theorem VisitIn.out {tasks : List (String × Task α)}
    {S v o : List String} (h : VisitIn tasks S v o) :
    VisitOut tasks S v o v o :=
  ⟨fun _ hx => hx, fun _ hx => hx, fun _ hx => Or.inl hx, h.sub, h.nd,
    h.keys, h.acc⟩

theorem VisitOut.trans {tasks : List (String × Task α)}
    {S v o v' o' v'' o'' : List String}
    (h1 : VisitOut tasks S v o v' o')
    (h2 : VisitOut tasks S v' o' v'' o'') :
    VisitOut tasks S v o v'' o'' where
  mono x hx := h2.mono x (h1.mono x hx)
  omono x hx := h2.omono x (h1.omono x hx)
  fresh x hx := by
    rcases h2.fresh x hx with h | h
    · exact h1.fresh x h
    · exact Or.inr (fun hv => h (h1.mono x hv))
  sub := h2.sub
  nd := h2.nd
  keys := h2.keys
  acc := h2.acc

/-- Main induction for `visit`: with enough fuel, one call preserves the
state invariant, marks its argument visited, and — on an acyclic, closed
graph — preserves topological sortedness of the accumulated order. -/
theorem visit_spec (tasks : List (String × Task α)) :
    ∀ fuel tid v o S,
      countFree tasks v < fuel →
      VisitIn tasks S v o →
      VisitOut tasks S v o (visit tasks fuel tid (v, o)).1
        (visit tasks fuel tid (v, o)).2 ∧
      tid ∈ (visit tasks fuel tid (v, o)).1 ∧
      (Acyclic tasks → ClosedDeps tasks →
        (∀ s, s ∈ S → Relation.TransGen (Dep tasks) s tid) →
        TopoList tasks o →
        TopoList tasks (visit tasks fuel tid (v, o)).2) := by
  intro fuel
  induction fuel with
  | zero =>
    intro tid v o S hfuel hin
    exact absurd hfuel (Nat.not_lt_zero _)
  | succ f ih =>
    intro tid v o S hfuel hin
    by_cases htid : tid ∈ v
    · have hval : visit tasks (f + 1) tid (v, o) = (v, o) := by
        simp [visit, htid]
      rw [hval]
      exact ⟨hin.out, htid, fun _ _ _ ht => ht⟩
    · cases hlk : tasks.lookup tid with
      | none =>
        have hval : visit tasks (f + 1) tid (v, o) = (tid :: v, o) := by
          simp [visit, htid, hlk]
        rw [hval]
        refine ⟨⟨fun x hx => List.mem_cons_of_mem _ hx, fun x hx => hx,
          fun x hx => Or.inl hx,
          fun x hx => List.mem_cons_of_mem _ (hin.sub x hx), hin.nd,
          hin.keys, ?_⟩, List.mem_cons_self _ _, fun _ _ _ ht => ht⟩
        intro x hx hkx
        rcases List.mem_cons.mp hx with rfl | hx'
        · rcases hkx with ⟨t, ht⟩
          rw [hlk] at ht
          exact absurd ht (by simp)
        · exact hin.acc x hx' hkx
      | some task =>
        have hval : visit tasks (f + 1) tid (v, o) =
            ((task.dependencies.foldl (fun st dep => visit tasks f dep st)
              (tid :: v, o)).1,
             (task.dependencies.foldl (fun st dep => visit tasks f dep st)
              (tid :: v, o)).2 ++ [tid]) := by
          simp [visit, htid, hlk]
        have hdep_of_mem : ∀ d, d ∈ task.dependencies → Dep tasks tid d :=
          fun d hd => ⟨task, hlk, hd⟩
        have fold_spec : ∀ ds : List String,
            (∀ d, d ∈ ds → d ∈ task.dependencies) →
            ∀ v2 o2, countFree tasks v2 < f →
            VisitIn tasks (tid :: S) v2 o2 →
            VisitOut tasks (tid :: S) v2 o2
              (ds.foldl (fun st dep => visit tasks f dep st) (v2, o2)).1
              (ds.foldl (fun st dep => visit tasks f dep st) (v2, o2)).2 ∧
            (∀ d, d ∈ ds → d ∈
              (ds.foldl (fun st dep => visit tasks f dep st) (v2, o2)).1) ∧
            (Acyclic tasks → ClosedDeps tasks →
              (∀ s, s ∈ S → Relation.TransGen (Dep tasks) s tid) →
              TopoList tasks o2 →
              TopoList tasks
                (ds.foldl (fun st dep => visit tasks f dep st)
                  (v2, o2)).2) := by
          intro ds
          induction ds with
          | nil =>
            intro _ v2 o2 hf2 hin2
            exact ⟨hin2.out, by simp, fun _ _ _ ht => ht⟩
          | cons d ds' ihd =>
            intro hds v2 o2 hf2 hin2
            have hd : d ∈ task.dependencies := hds d (List.mem_cons_self _ _)
            obtain ⟨out1, hdv, topo1⟩ := ih d v2 o2 (tid :: S) hf2 hin2
            have hf3 : countFree tasks (visit tasks f d (v2, o2)).1 < f :=
              Nat.lt_of_le_of_lt (countFree_mono tasks out1.mono) hf2
            obtain ⟨out2, hmem2, topo2⟩ :=
              ihd (fun d' hd' => hds d' (List.mem_cons_of_mem _ hd'))
                (visit tasks f d (v2, o2)).1 (visit tasks f d (v2, o2)).2
                hf3 out1.toIn
            have hfold : (d :: ds').foldl
                (fun st dep => visit tasks f dep st) (v2, o2) =
                ds'.foldl (fun st dep => visit tasks f dep st)
                  ((visit tasks f d (v2, o2)).1,
                   (visit tasks f d (v2, o2)).2) := by
              rw [List.foldl_cons]
            rw [hfold]
            refine ⟨out1.trans out2, ?_, ?_⟩
            · intro d0 hd0
              rcases List.mem_cons.mp hd0 with rfl | hd0'
              · exact out2.mono d0 hdv
              · exact hmem2 d0 hd0'
            · intro hA hC hS ht
              have hS' : ∀ s, s ∈ tid :: S →
                  Relation.TransGen (Dep tasks) s d := by
                intro s hs
                rcases List.mem_cons.mp hs with rfl | hs'
                · exact Relation.TransGen.single (hdep_of_mem d hd)
                · exact (hS s hs').tail (hdep_of_mem d hd)
              exact topo2 hA hC hS (topo1 hA hC hS' ht)
        have hf1 : countFree tasks (tid :: v) < f := by
          have := countFree_lt tasks ⟨task, hlk⟩ htid
          omega
        have hin1 : VisitIn tasks (tid :: S) (tid :: v) o := by
          refine ⟨fun x hx => List.mem_cons_of_mem _ (hin.sub x hx), hin.nd,
            hin.keys, ?_⟩
          intro x hx hkx
          rcases List.mem_cons.mp hx with rfl | hx'
          · exact Or.inr (List.mem_cons_self _ _)
          · rcases hin.acc x hx' hkx with h | h
            · exact Or.inl h
            · exact Or.inr (List.mem_cons_of_mem _ h)
        obtain ⟨outf, hdsmem, topof⟩ :=
          fold_spec task.dependencies (fun _ h => h) (tid :: v) o hf1 hin1
        rw [hval]
        set stf := task.dependencies.foldl
          (fun st dep => visit tasks f dep st) (tid :: v, o) with hstf
        have htid_stf : tid ∈ stf.1 := outf.mono tid (List.mem_cons_self _ _)
        have htid_not_o : tid ∉ o := fun h => htid (hin.sub tid h)
        have htid_not_stf2 : tid ∉ stf.2 := by
          intro h
          rcases outf.fresh tid h with h' | h'
          · exact htid_not_o h'
          · exact h' (List.mem_cons_self _ _)
        refine ⟨⟨?_, ?_, ?_, ?_, ?_, ?_, ?_⟩, htid_stf, ?_⟩
        · exact fun x hx => outf.mono x (List.mem_cons_of_mem _ hx)
        · exact fun x hx => List.mem_append_left _ (outf.omono x hx)
        · intro x hx
          rcases List.mem_append.mp hx with h | h
          · rcases outf.fresh x h with h' | h'
            · exact Or.inl h'
            · exact Or.inr (fun hv => h' (List.mem_cons_of_mem _ hv))
          · obtain rfl : x = tid := by simpa using h
            exact Or.inr htid
        · intro x hx
          rcases List.mem_append.mp hx with h | h
          · exact outf.sub x h
          · obtain rfl : x = tid := by simpa using h
            exact htid_stf
        · rw [List.nodup_append]
          refine ⟨outf.nd, List.nodup_singleton _, ?_⟩
          intro a ha hmem
          obtain rfl : a = tid := by simpa using hmem
          exact htid_not_stf2 ha
        · intro x hx
          rcases List.mem_append.mp hx with h | h
          · exact outf.keys x h
          · obtain rfl : x = tid := by simpa using h
            exact ⟨task, hlk⟩
        · intro x hx hkx
          rcases outf.acc x hx hkx with h | h
          · exact Or.inl (List.mem_append_left _ h)
          · rcases List.mem_cons.mp h with rfl | h'
            · exact Or.inl (List.mem_append_right _ (List.mem_singleton.mpr
                rfl))
            · exact Or.inr h'
        · intro hA hC hS ht
          have tf : TopoList tasks stf.2 := topof hA hC hS ht
          refine topoList_append_single tf ?_
          rintro d ⟨t', hl', hd'⟩
          rw [hlk] at hl'
          have ht' : t' = task := by simpa using hl'.symm
          rw [ht'] at hd'
          have hdin : d ∈ stf.1 := hdsmem d hd'
          have hk : IsKey tasks d := hC tid d ⟨task, hlk, hd'⟩
          rcases outf.acc d hdin hk with h | h
          · exact h
          · rcases List.mem_cons.mp h with rfl | h'
            · exact absurd (Relation.TransGen.single
                (hdep_of_mem d hd')) (hA d)
            · exact absurd ((hS d h').tail (hdep_of_mem d hd')) (hA d)

/-- Specification of the whole `_get_execution_order` computation. -/
theorem execOrderAux_spec (tasks : List (String × Task α)) :
    (execOrderAux tasks).Nodup ∧
    (∀ x, x ∈ execOrderAux tasks → IsKey tasks x) ∧
    (∀ k, IsKey tasks k → k ∈ execOrderAux tasks) ∧
    (Acyclic tasks → ClosedDeps tasks →
      TopoList tasks (execOrderAux tasks)) := by
  have top : ∀ es : List (String × Task α), ∀ v2 o2 : List String,
      VisitIn tasks [] v2 o2 →
      VisitOut tasks [] v2 o2
        (es.foldl (fun st pr => visit tasks (tasks.length + 1) pr.1 st)
          (v2, o2)).1
        (es.foldl (fun st pr => visit tasks (tasks.length + 1) pr.1 st)
          (v2, o2)).2 ∧
      (∀ e, e ∈ es → e.1 ∈
        (es.foldl (fun st pr => visit tasks (tasks.length + 1) pr.1 st)
          (v2, o2)).1) ∧
      (Acyclic tasks → ClosedDeps tasks → TopoList tasks o2 →
        TopoList tasks
          (es.foldl (fun st pr => visit tasks (tasks.length + 1) pr.1 st)
            (v2, o2)).2) := by
    intro es
    induction es with
    | nil =>
      intro v2 o2 hin
      exact ⟨hin.out, by simp, fun _ _ ht => ht⟩
    | cons e es' ihe =>
      intro v2 o2 hin
      have hfuel : countFree tasks v2 < tasks.length + 1 :=
        Nat.lt_succ_of_le (countFree_le_length tasks v2)
      obtain ⟨out1, hev, topo1⟩ :=
        visit_spec tasks (tasks.length + 1) e.1 v2 o2 [] hfuel hin
      obtain ⟨out2, hmem2, topo2⟩ :=
        ihe (visit tasks (tasks.length + 1) e.1 (v2, o2)).1
          (visit tasks (tasks.length + 1) e.1 (v2, o2)).2 out1.toIn
      have hfold : (e :: es').foldl
          (fun st pr => visit tasks (tasks.length + 1) pr.1 st) (v2, o2) =
          es'.foldl (fun st pr => visit tasks (tasks.length + 1) pr.1 st)
            ((visit tasks (tasks.length + 1) e.1 (v2, o2)).1,
             (visit tasks (tasks.length + 1) e.1 (v2, o2)).2) := by
        rw [List.foldl_cons]
      rw [hfold]
      refine ⟨out1.trans out2, ?_, ?_⟩
      · intro e0 he0
        rcases List.mem_cons.mp he0 with rfl | he0'
        · exact out2.mono e0.1 hev
        · exact hmem2 e0 he0'
      · intro hA hC ht
        exact topo2 hA hC (topo1 hA hC (by simp) ht)
  have hin0 : VisitIn tasks [] [] [] :=
    ⟨by simp, List.nodup_nil, by simp, by simp⟩
  obtain ⟨out, hmem, htopo⟩ := top tasks [] [] hin0
  refine ⟨out.nd, out.keys, ?_, fun hA hC => htopo hA hC
    (topoList_nil tasks)⟩
  intro k hk
  rcases List.mem_map.mp (isKey_iff_mem_keys.mp hk) with ⟨e, he, rfl⟩
  rcases out.acc e.1 (hmem e he) hk with h | h
  · exact h
  · simp at h

theorem order_nodup (tasks : List (String × Task α)) :
    (execOrderAux tasks).Nodup :=
  (execOrderAux_spec tasks).1

theorem order_keys (tasks : List (String × Task α)) :
    ∀ x, x ∈ execOrderAux tasks → IsKey tasks x :=
  (execOrderAux_spec tasks).2.1

theorem order_complete (tasks : List (String × Task α)) :
    ∀ k, IsKey tasks k → k ∈ execOrderAux tasks :=
  (execOrderAux_spec tasks).2.2.1

theorem order_topo {tasks : List (String × Task α)} (hA : Acyclic tasks)
    (hC : ClosedDeps tasks) : TopoList tasks (execOrderAux tasks) :=
  (execOrderAux_spec tasks).2.2.2 hA hC

section BeforeLemmas

theorem exists_get?_of_mem_take {l : List String} {j : Nat} {x : String}
    (h : x ∈ l.take j) : ∃ i, i < j ∧ l.get? i = some x := by
  rw [List.mem_take_iff_getElem] at h
  obtain ⟨i, hi, he⟩ := h
  have hil : i < l.length := Nat.lt_of_lt_of_le hi (min_le_right _ _)
  exact ⟨i, Nat.lt_of_lt_of_le hi (min_le_left _ _),
    by rw [List.get?_eq_get hil]; simp [← he, List.get_eq_getElem]⟩

theorem get?_inj_of_nodup {l : List String} (hnd : l.Nodup) {i j : Nat}
    {x : String} (h1 : l.get? i = some x) (h2 : l.get? j = some x) :
    i = j := by
  obtain ⟨hi, e1⟩ := List.get?_eq_some.mp h1
  obtain ⟨hj, e2⟩ := List.get?_eq_some.mp h2
  have h := (List.Nodup.get_inj_iff hnd
    (i := ⟨i, hi⟩) (j := ⟨j, hj⟩)).mp (e1.trans e2.symm)
  simpa using h

theorem before_trans {l : List String} (hnd : l.Nodup) {x y z : String}
    (h1 : Before l x y) (h2 : Before l y z) : Before l x z := by
  obtain ⟨i, j, hij, hx, hy⟩ := h1
  obtain ⟨i', j', hij', hy', hz⟩ := h2
  have : j = i' := get?_inj_of_nodup hnd hy hy'
  exact ⟨i, j', by omega, hx, hz⟩

theorem mem_of_before_left {l : List String} {x y : String}
    (h : Before l x y) : x ∈ l := by
  obtain ⟨i, _, _, hx, _⟩ := h
  obtain ⟨hi, e⟩ := List.get?_eq_some.mp hx
  exact e ▸ List.get_mem _ _ _

theorem before_of_dep {tasks : List (String × Task α)} {o : List String}
    (htopo : TopoList tasks o) {a d : String} (ha : a ∈ o)
    (hdep : Dep tasks a d) : Before o d a := by
  obtain ⟨⟨j, hj⟩, he⟩ := List.mem_iff_get.mp ha
  have hdj : d ∈ o.take j := htopo j hj d (by
    rw [List.get_eq_getElem] at he
    rw [he]
    exact hdep)
  obtain ⟨i, hij, hi⟩ := exists_get?_of_mem_take hdj
  refine ⟨i, j, hij, hi, ?_⟩
  rw [List.get?_eq_get hj, he]

theorem before_of_transGen {tasks : List (String × Task α)}
    {o : List String} (hnd : o.Nodup) (htopo : TopoList tasks o)
    {a d : String} (ha : a ∈ o)
    (h : Relation.TransGen (Dep tasks) a d) : Before o d a := by
  induction h with
  | single hstep => exact before_of_dep htopo ha hstep
  | tail hprev hstep ihp =>
    have hb := ihp
    have hm : _ ∈ o := mem_of_before_left hb
    exact before_trans hnd (before_of_dep htopo hm hstep) hb

end BeforeLemmas

section AcyclicCertificates

theorem transGen_rank {tasks : List (String × Task α)}
    {rank : String → Nat}
    (h : ∀ a b, Dep tasks a b → rank b < rank a) :
    ∀ x y, Relation.TransGen (Dep tasks) x y → rank y < rank x := by
  intro x y hxy
  induction hxy with
  | single hs => exact h _ _ hs
  | tail _ hs ihp => exact Nat.lt_trans (h _ _ hs) ihp

theorem acyclic_of_rank (tasks : List (String × Task α))
    (rank : String → Nat)
    (h : ∀ a b, Dep tasks a b → rank b < rank a) : Acyclic tasks :=
  fun a hcyc => absurd (transGen_rank h a a hcyc) (Nat.lt_irrefl _)

theorem forall_lookup_of_all {tasks : List (String × Task α)}
    {f : String × Task α → Bool} (h : tasks.all f = true) :
    ∀ k t, tasks.lookup k = some t → f (k, t) = true :=
  fun _ _ hl => List.all_eq_true.mp h _ (lookup_mem hl)

theorem acyclic_of_rankB (tasks : List (String × Task α))
    (rank : String → Nat)
    (h : tasks.all (fun pr => pr.2.dependencies.all
      (fun d => decide (rank d < rank pr.1))) = true) : Acyclic tasks := by
  apply acyclic_of_rank tasks rank
  rintro a b ⟨t, hl, hb⟩
  have hall := forall_lookup_of_all h a t hl
  simp only [List.all_eq_true, decide_eq_true_eq] at hall
  exact hall b hb

end AcyclicCertificates



/-- C1: for every acyclic `Pipeline` whose tasks' dependency ids all name
registered tasks, `_get_execution_order` lists each registered task id
exactly once (no duplicates and membership coincides with registration),
and every id appears after all of its transitive dependencies. -/
theorem execution_order_correct (p : Pipeline α)
    (hA : Acyclic p.tasks) (hC : ClosedDeps p.tasks) :
    (getExecutionOrder p).Nodup ∧
    (∀ k, k ∈ getExecutionOrder p ↔ IsKey p.tasks k) ∧
    (∀ a d, a ∈ getExecutionOrder p →
      Relation.TransGen (Dep p.tasks) a d →
      Before (getExecutionOrder p) d a) := by
  refine ⟨order_nodup p.tasks, ?_, ?_⟩
  · intro k
    exact ⟨fun h => order_keys p.tasks k h,
      fun h => order_complete p.tasks k h⟩
  · intro a d ha hreach
    exact before_of_transGen (order_nodup p.tasks) (order_topo hA hC)
      ha hreach

/-- Witness for C1 at the concrete dependency graph of
`create_daily_pipeline`. -/
theorem execution_order_correct_witness :
    Acyclic PDaily.tasks ∧ ClosedDeps PDaily.tasks ∧
    ((getExecutionOrder PDaily).Nodup ∧
     (∀ k, k ∈ getExecutionOrder PDaily ↔ IsKey PDaily.tasks k) ∧
     (∀ a d, a ∈ getExecutionOrder PDaily →
       Relation.TransGen (Dep PDaily.tasks) a d →
       Before (getExecutionOrder PDaily) d a)) := by
  have hA : Acyclic PDaily.tasks :=
    acyclic_of_rankB PDaily.tasks rankDaily (by decide)
  have hC : ClosedDeps PDaily.tasks := closedDeps_of_closedB (by decide)
  exact ⟨hA, hC, execution_order_correct PDaily hA hC⟩

section RunLemmas

theorem copyTask_eq (t : Task α) : copyTask t = t := rfl

theorem copies_eq (tasks : List (String × Task α)) :
    tasks.map (fun pr => (pr.1, copyTask pr.2)) = tasks := by
  have h : ∀ pr : String × Task α, (pr.1, copyTask pr.2) = pr := by
    intro pr
    rw [copyTask_eq]
  simp only [h]
  exact List.map_id' tasks

/-- Unfolding of a successful `run()`: the loop ran over the execution
order on a copy of the task table, and the `DAGRun`/updated `Pipeline`
are assembled from its outcome. -/
theorem runPipeline_ok_elim {p : Pipeline α} {ctx : List (String × α)}
    {c : Nat} {dr : DAGRun α} {p' : Pipeline α}
    (h : runPipeline p ctx c = Except.ok (dr, p')) :
    ∃ fin cf,
      runLoop ctx (execOrderAux p.tasks) p.tasks (c + 1 + 1) =
        Except.ok (fin, cf) ∧
      dr.tasks = fin ∧
      dr.status = (if fin.all (fun pr =>
          pr.2.status == TaskStatus.success ||
          pr.2.status == TaskStatus.skipped) then TaskStatus.success
        else TaskStatus.failed) ∧
      p'.tasks = p.tasks ∧ p'.runs = p.runs ++ [dr] := by
  unfold runPipeline at h
  rw [copies_eq] at h
  simp only [] at h
  split at h
  · cases h
  · rename_i fin clock heq
    simp only [Except.ok.injEq, Prod.mk.injEq] at h
    obtain ⟨hdr, hp'⟩ := h
    refine ⟨fin, clock, heq, ?_, ?_, ?_, ?_⟩
    · rw [← hdr]
    · rw [← hdr]
    · rw [← hp']
    · rw [← hp', ← hdr]

/-- The truth value returned by the dependency gate, when no `KeyError`
is raised. -/
theorem depsGate_ok_iff {tasks : List (String × Task α)} {ds : List String}
    {g : Bool} (h : depsGate tasks ds = Except.ok g) :
    (g = true ↔ ∀ d, d ∈ ds → ∃ td, tasks.lookup d = some td ∧
      td.status = TaskStatus.success) := by
  induction ds with
  | nil =>
    simp only [depsGate, Except.ok.injEq] at h
    subst h
    simp
  | cons d rest ih =>
    rw [depsGate] at h
    cases hlk : tasks.lookup d with
    | none => rw [hlk] at h; cases h
    | some td =>
      rw [hlk] at h
      simp only [] at h
      by_cases hst : td.status = TaskStatus.success
      · rw [if_pos hst] at h
        have hiff := ih h
        constructor
        · intro hg d0 hd0
          rcases List.mem_cons.mp hd0 with rfl | hd0'
          · exact ⟨td, hlk, hst⟩
          · exact hiff.mp hg d0 hd0'
        · intro hall
          exact hiff.mpr (fun d0 hd0 =>
            hall d0 (List.mem_cons_of_mem _ hd0))
      · rw [if_neg hst] at h
        have hg : g = false := by
          simpa using h.symm
        subst hg
        simp only [Bool.false_eq_true, false_iff, not_forall]
        refine ⟨d, ⟨List.mem_cons_self _ _, ?_⟩⟩
        rintro ⟨td', hlk', hst'⟩
        rw [hlk] at hlk'
        obtain rfl : td = td' := by simpa using hlk'
        exact hst hst'

/-- Outcome of one iteration of the `run()` loop. -/
theorem processTask_ok_elim {tasks : List (String × Task α)}
    {ctx : List (String × α)} {tid : String} {clock : Nat}
    {m : List (String × Task α)} {c2 : Nat}
    (h : processTask tasks ctx tid clock = Except.ok (m, c2)) :
    ∃ task, tasks.lookup tid = some task ∧
      ((depsGate tasks task.dependencies = Except.ok false ∧
        m = dictSet tasks tid (skipTask task) ∧
        c2 = clock) ∨
       (depsGate tasks task.dependencies = Except.ok true ∧
        m = dictSet tasks tid (runAttempts ctx (startRun task clock) 0
          task.retries (clock + 1)).1 ∧
        c2 = (runAttempts ctx (startRun task clock) 0
          task.retries (clock + 1)).2)) := by
  unfold processTask at h
  cases hlk : tasks.lookup tid with
  | none => rw [hlk] at h; cases h
  | some task =>
    rw [hlk] at h
    simp only [] at h
    refine ⟨task, rfl, ?_⟩
    cases hg : depsGate tasks task.dependencies with
    | error e => rw [hg] at h; cases h
    | ok b =>
      rw [hg] at h
      cases b with
      | false =>
        simp only [Except.ok.injEq, Prod.mk.injEq] at h
        exact Or.inl ⟨rfl, h.1.symm, h.2.symm⟩
      | true =>
        simp only [Except.ok.injEq, Prod.mk.injEq] at h
        exact Or.inr ⟨rfl, h.1.symm, h.2.symm⟩

/-- One loop iteration for id `tid` does not change the binding of any
other id. -/
theorem processTask_lookup_other {tasks : List (String × Task α)}
    {ctx : List (String × α)} {tid : String} {clock : Nat}
    {m : List (String × Task α)} {c2 : Nat}
    (h : processTask tasks ctx tid clock = Except.ok (m, c2))
    {k : String} (hk : k ≠ tid) : m.lookup k = tasks.lookup k := by
  obtain ⟨task, _, hbr | hbr⟩ := processTask_ok_elim h <;>
    rw [hbr.2.1, lookup_dictSet, if_neg hk]

theorem runLoop_append (ctx : List (String × α)) (l1 l2 : List String)
    (tasks : List (String × Task α)) (clock : Nat) :
    runLoop ctx (l1 ++ l2) tasks clock =
      match runLoop ctx l1 tasks clock with
      | Except.error e => Except.error e
      | Except.ok st => runLoop ctx l2 st.1 st.2 := by
  induction l1 generalizing tasks clock with
  | nil => rw [List.nil_append]; rfl
  | cons tid rest ih =>
    rw [List.cons_append]
    simp only [runLoop]
    cases hp : processTask tasks ctx tid clock with
    | error e => rfl
    | ok st => exact ih st.1 st.2

theorem runLoop_ok_notmem {ctx : List (String × α)} {l : List String}
    {tasks : List (String × Task α)} {clock : Nat}
    {m : List (String × Task α)} {cf : Nat}
    (h : runLoop ctx l tasks clock = Except.ok (m, cf)) {k : String}
    (hk : k ∉ l) : m.lookup k = tasks.lookup k := by
  induction l generalizing tasks clock with
  | nil =>
    simp only [runLoop, Except.ok.injEq, Prod.mk.injEq] at h
    rw [h.1]
  | cons tid rest ih =>
    rw [runLoop] at h
    cases hp : processTask tasks ctx tid clock with
    | error e => rw [hp] at h; cases h
    | ok st =>
      rw [hp] at h
      have h1 := ih h (fun hm => hk (List.mem_cons_of_mem _ hm))
      have h2 := processTask_lookup_other hp
        (fun he => hk (he ▸ List.mem_cons_self _ _))
      rw [h1, h2]

theorem runLoop_split {ctx : List (String × α)} {l1 l2 : List String}
    {tid : String} {tasks : List (String × Task α)} {clock : Nat}
    {m : List (String × Task α)} {cf : Nat}
    (h : runLoop ctx (l1 ++ tid :: l2) tasks clock = Except.ok (m, cf)) :
    ∃ mid c1 mid2 c2, runLoop ctx l1 tasks clock = Except.ok (mid, c1) ∧
      processTask mid ctx tid c1 = Except.ok (mid2, c2) ∧
      runLoop ctx l2 mid2 c2 = Except.ok (m, cf) := by
  rw [runLoop_append] at h
  cases h1 : runLoop ctx l1 tasks clock with
  | error e => rw [h1] at h; cases h
  | ok st1 =>
    obtain ⟨mid, c1⟩ := st1
    rw [h1] at h
    simp only [runLoop] at h
    cases h2 : processTask mid ctx tid c1 with
    | error e => rw [h2] at h; cases h
    | ok st2 =>
      obtain ⟨mid2, c2⟩ := st2
      rw [h2] at h
      exact ⟨mid, c1, mid2, c2, rfl, h2, h⟩

/-- Central description of one task's final state after a successful
`run()`: its binding in the returned `DAGRun` is either the `SKIPPED`
write (gate `g` failed) or the outcome of the retry loop started from
`RUNNING` (gate passed); on an acyclic, closed graph the gate truth value
is exactly "all dependencies ended `SUCCESS` in the final record". -/
theorem run_task_final {p : Pipeline α} {ctx : List (String × α)} {c : Nat}
    {dr : DAGRun α} {p' : Pipeline α} {tid : String} {t0 : Task α}
    (hrun : runPipeline p ctx c = Except.ok (dr, p'))
    (h0 : p.tasks.lookup tid = some t0) :
    ∃ (g : Bool) (c1 : Nat),
      dr.tasks.lookup tid = some (if g then
        (runAttempts ctx (startRun t0 c1) 0 t0.retries (c1 + 1)).1
        else skipTask t0) ∧
      (Acyclic p.tasks → ClosedDeps p.tasks →
        (g = true ↔ ∀ d, d ∈ t0.dependencies →
          ∃ td, dr.tasks.lookup d = some td ∧
            td.status = TaskStatus.success)) := by
  obtain ⟨fin, cf, hrl, hdrt, _, _, _⟩ := runPipeline_ok_elim hrun
  have htid_mem : tid ∈ execOrderAux p.tasks :=
    order_complete p.tasks tid ⟨t0, h0⟩
  obtain ⟨l1, l2, horder⟩ := List.append_of_mem htid_mem
  have hnd := order_nodup p.tasks
  rw [horder] at hnd hrl
  obtain ⟨hnd1, hndc, hdisj⟩ := List.nodup_append.mp hnd
  have htid_l1 : tid ∉ l1 := fun hm =>
    hdisj hm (List.mem_cons_self _ _)
  have htid_l2 : tid ∉ l2 := (List.nodup_cons.mp hndc).1
  obtain ⟨mid, c1, mid2, c2, h1, h2, h3⟩ := runLoop_split hrl
  have hmid_tid : mid.lookup tid = p.tasks.lookup tid :=
    runLoop_ok_notmem h1 htid_l1
  obtain ⟨task, hlt, hbr⟩ := processTask_ok_elim h2
  have htask : task = t0 := by
    rw [hmid_tid, h0] at hlt
    simpa using hlt.symm
  subst htask
  have hfin_tid : fin.lookup tid = mid2.lookup tid :=
    runLoop_ok_notmem h3 htid_l2
  -- the gate value and resulting write
  have hkey : ∀ (g : Bool),
      depsGate mid task.dependencies = Except.ok g →
      mid2 = dictSet mid tid (if g then
        (runAttempts ctx (startRun task c1) 0 task.retries (c1 + 1)).1
        else skipTask task) →
      ∃ (g' : Bool) (c1' : Nat),
        dr.tasks.lookup tid = some (if g' then
          (runAttempts ctx (startRun task c1') 0 task.retries
            (c1' + 1)).1 else skipTask task) ∧
        (Acyclic p.tasks → ClosedDeps p.tasks →
          (g' = true ↔ ∀ d, d ∈ task.dependencies →
            ∃ td, dr.tasks.lookup d = some td ∧
              td.status = TaskStatus.success)) := by
    intro g hg hmid2
    refine ⟨g, c1, ?_, ?_⟩
    · rw [hdrt, hfin_tid, hmid2, lookup_dictSet, if_pos rfl]
    · intro hA hC
      have hiff := depsGate_ok_iff hg
      have hsame : ∀ d, d ∈ task.dependencies →
          fin.lookup d = mid.lookup d := by
        intro d hd
        have hdep : Dep p.tasks tid d := ⟨task, h0, hd⟩
        have htopo := order_topo hA hC
        rw [horder] at htopo
        have hlen2 : l1.length < (l1 ++ tid :: l2).length := by simp
        have hget2 : (l1 ++ tid :: l2)[l1.length] = tid := by
          rw [List.getElem_append_right (Nat.le_refl _)]
          simp
        have hdl1 : d ∈ l1 := by
          have h' := htopo l1.length hlen2 d (by rw [hget2]; exact hdep)
          rwa [List.take_left] at h'
        have hd_ne : d ≠ tid := fun he =>
          hdisj hdl1 (he ▸ List.mem_cons_self _ _)
        have hd_l2 : d ∉ l2 := fun hm =>
          hdisj hdl1 (List.mem_cons_of_mem _ hm)
        rw [runLoop_ok_notmem h3 hd_l2, processTask_lookup_other h2 hd_ne]
      constructor
      · intro hgt d hd
        rcases hiff.mp hgt d hd with ⟨td, hltd, hstd⟩
        exact ⟨td, by rw [hdrt, hsame d hd]; exact hltd, hstd⟩
      · intro hall
        apply hiff.mpr
        intro d hd
        rcases hall d hd with ⟨td, hltd, hstd⟩
        refine ⟨td, ?_, hstd⟩
        rw [hdrt, hsame d hd] at hltd
        exact hltd
  rcases hbr with ⟨hg, hmid2, _⟩ | ⟨hg, hmid2, _⟩
  · exact hkey false hg (by rw [hmid2]; rfl)
  · exact hkey true hg (by rw [hmid2]; rfl)

theorem runAttempts_deps (ctx : List (String × α)) :
    ∀ (t : Task α) (a n c : Nat),
      (runAttempts ctx t a n c).1.dependencies = t.dependencies := by
  intro t a n
  induction n generalizing t a with
  | zero => intro c; rfl
  | succ m ih =>
    intro c
    rw [runAttempts]
    cases t.callable a ctx with
    | ok r => rfl
    | error e =>
      simp only []
      by_cases hm : m = 0
      · subst hm
        rw [if_pos rfl]
      · rw [if_neg hm]
        exact ih _ _ _

theorem runAttempts_retries (ctx : List (String × α)) :
    ∀ (t : Task α) (a n c : Nat),
      (runAttempts ctx t a n c).1.retries = t.retries := by
  intro t a n
  induction n generalizing t a with
  | zero => intro c; rfl
  | succ m ih =>
    intro c
    rw [runAttempts]
    cases t.callable a ctx with
    | ok r => rfl
    | error e =>
      simp only []
      by_cases hm : m = 0
      · subst hm
        rw [if_pos rfl]
      · rw [if_neg hm]
        exact ih _ _ _

theorem runAttempts_status (ctx : List (String × α)) :
    ∀ (t : Task α) (a n c : Nat),
      (runAttempts ctx t a n c).1.status = t.status ∨
      (runAttempts ctx t a n c).1.status = TaskStatus.success ∨
      (runAttempts ctx t a n c).1.status = TaskStatus.failed := by
  intro t a n
  induction n generalizing t a with
  | zero => intro c; exact Or.inl rfl
  | succ m ih =>
    intro c
    rw [runAttempts]
    cases t.callable a ctx with
    | ok r => exact Or.inr (Or.inl rfl)
    | error e =>
      simp only []
      by_cases hm : m = 0
      · subst hm
        rw [if_pos rfl]
        exact Or.inr (Or.inr rfl)
      · rw [if_neg hm]
        exact ih _ _ _

theorem runAttempts_terminal (ctx : List (String × α)) :
    ∀ (t : Task α) (a n c : Nat), 1 ≤ n →
      (runAttempts ctx t a n c).1.status = TaskStatus.success ∨
      (runAttempts ctx t a n c).1.status = TaskStatus.failed := by
  intro t a n
  induction n generalizing t a with
  | zero => intro c h; exact absurd h (by omega)
  | succ m ih =>
    intro c _
    rw [runAttempts]
    cases t.callable a ctx with
    | ok r => exact Or.inl rfl
    | error e =>
      simp only []
      by_cases hm : m = 0
      · subst hm
        rw [if_pos rfl]
        exact Or.inr rfl
      · rw [if_neg hm]
        exact ih _ _ _ (by omega)

theorem runAttempts_first_ok (ctx : List (String × α)) (t : Task α)
    (a n c : Nat) (hn : 1 ≤ n) {r : α}
    (h : t.callable a ctx = Except.ok r) :
    runAttempts ctx t a n c =
      ({ t with result := some r,
                status := TaskStatus.success,
                completed_at := some c }, c + 1) := by
  cases n with
  | zero => exact absurd hn (by omega)
  | succ m =>
    rw [runAttempts, h]

theorem runAttempts_all_fail (ctx : List (String × α))
    (errf : Nat → String) :
    ∀ (n : Nat) (t : Task α) (a c : Nat), 1 ≤ n →
      (∀ i, a ≤ i → i < a + n → t.callable i ctx =
        Except.error (errf i)) →
      runAttempts ctx t a n c =
        ({ t with error := some (errf (a + n - 1)),
                  status := TaskStatus.failed,
                  completed_at := some c }, c + 1) := by
  intro n
  induction n with
  | zero =>
    intro t a c hn
    exact absurd hn (by omega)
  | succ m ih =>
    intro t a c _ herr
    rw [runAttempts, herr a (Nat.le_refl _) (by omega)]
    simp only []
    by_cases hm : m = 0
    · subst hm
      rw [if_pos rfl]
      have harith0 : a + (0 + 1) - 1 = a := by omega
      rw [harith0]
    · rw [if_neg hm]
      have := ih { t with error := some (errf a) } (a + 1) c
        (by omega) (fun i h1 h2 => herr i (by omega) (by omega))
      rw [this]
      have harith : a + 1 + m - 1 = a + (m + 1) - 1 := by omega
      rw [harith]

theorem processTask_keys {tasks : List (String × Task α)}
    {ctx : List (String × α)} {tid : String} {clock : Nat}
    {m : List (String × Task α)} {c2 : Nat}
    (h : processTask tasks ctx tid clock = Except.ok (m, c2)) :
    m.map Prod.fst = tasks.map Prod.fst := by
  obtain ⟨task, hlt, hbr | hbr⟩ := processTask_ok_elim h <;>
    rw [hbr.2.1, keys_dictSet_of_isKey ⟨task, hlt⟩]

theorem runLoop_keys {ctx : List (String × α)} {l : List String}
    {tasks : List (String × Task α)} {clock : Nat}
    {m : List (String × Task α)} {cf : Nat}
    (h : runLoop ctx l tasks clock = Except.ok (m, cf)) :
    m.map Prod.fst = tasks.map Prod.fst := by
  induction l generalizing tasks clock with
  | nil =>
    simp only [runLoop, Except.ok.injEq, Prod.mk.injEq] at h
    rw [h.1]
  | cons tid rest ih =>
    rw [runLoop] at h
    cases hp : processTask tasks ctx tid clock with
    | error e => rw [hp] at h; cases h
    | ok st =>
      rw [hp] at h
      rw [ih h, processTask_keys hp]

theorem run_keys {p : Pipeline α} {ctx : List (String × α)} {c : Nat}
    {dr : DAGRun α} {p' : Pipeline α}
    (hrun : runPipeline p ctx c = Except.ok (dr, p')) :
    dr.tasks.map Prod.fst = p.tasks.map Prod.fst := by
  obtain ⟨fin, cf, hrl, hdrt, _, _, _⟩ := runPipeline_ok_elim hrun
  rw [hdrt, runLoop_keys hrl]

theorem depsGate_total {m : List (String × Task α)} {ds : List String}
    (h : ∀ d, d ∈ ds → IsKey m d) :
    ∃ b, depsGate m ds = Except.ok b := by
  induction ds with
  | nil => exact ⟨true, rfl⟩
  | cons d rest ih =>
    obtain ⟨td, htd⟩ := h d (List.mem_cons_self _ _)
    rw [depsGate, htd]
    simp only []
    by_cases hst : td.status = TaskStatus.success
    · rw [if_pos hst]
      exact ih (fun d' hd' => h d' (List.mem_cons_of_mem _ hd'))
    · rw [if_neg hst]
      exact ⟨false, rfl⟩

theorem runLoop_total {p : Pipeline α} (hC : ClosedDeps p.tasks)
    (ctx : List (String × α)) :
    ∀ (l : List String) (m : List (String × Task α)) (clock : Nat),
      m.map Prod.fst = p.tasks.map Prod.fst →
      (∀ k, (m.lookup k).map Task.dependencies =
        (p.tasks.lookup k).map Task.dependencies) →
      (∀ x, x ∈ l → IsKey p.tasks x) →
      ∃ r, runLoop ctx l m clock = Except.ok r := by
  intro l
  induction l with
  | nil =>
    intro m clock _ _ _
    exact ⟨(m, clock), rfl⟩
  | cons tid rest ih =>
    intro m clock hkeys hdeps hmem
    have hkey_p : IsKey p.tasks tid := hmem tid (List.mem_cons_self _ _)
    have hkey_m : IsKey m tid := by
      rw [isKey_iff_mem_keys, hkeys]
      exact isKey_iff_mem_keys.mp hkey_p
    obtain ⟨task, hlt⟩ := hkey_m
    obtain ⟨t0, h0⟩ := hkey_p
    have hdeps_t : task.dependencies = t0.dependencies := by
      have h := hdeps tid
      rw [hlt, h0] at h
      simpa using h
    have hdk : ∀ d, d ∈ task.dependencies → IsKey m d := by
      intro d hd
      rw [hdeps_t] at hd
      have hkd : IsKey p.tasks d := hC tid d ⟨t0, h0, hd⟩
      rw [isKey_iff_mem_keys, hkeys]
      exact isKey_iff_mem_keys.mp hkd
    obtain ⟨b, hb⟩ := depsGate_total hdk
    have hproc : ∃ m2 c2,
        processTask m ctx tid clock = Except.ok (m2, c2) ∧
        ∃ X : Task α, m2 = dictSet m tid X ∧
          X.dependencies = task.dependencies := by
      unfold processTask
      rw [hlt]
      simp only []
      rw [hb]
      cases b with
      | false =>
        exact ⟨_, _, rfl, skipTask task, rfl, rfl⟩
      | true =>
        refine ⟨_, _, rfl, (runAttempts ctx (startRun task clock) 0
          task.retries (clock + 1)).1, rfl, ?_⟩
        rw [runAttempts_deps]
        rfl
    obtain ⟨m2, c2, hpt, X, hm2, hXdeps⟩ := hproc
    have hkeys2 : m2.map Prod.fst = p.tasks.map Prod.fst := by
      rw [hm2, keys_dictSet_of_isKey ⟨task, hlt⟩, hkeys]
    have hdeps2 : ∀ k, (m2.lookup k).map Task.dependencies =
        (p.tasks.lookup k).map Task.dependencies := by
      intro k
      rw [hm2, lookup_dictSet]
      by_cases hk : k = tid
      · subst hk
        rw [if_pos rfl, h0]
        simp [hXdeps, hdeps_t]
      · rw [if_neg hk]
        exact hdeps k
    obtain ⟨r, hr⟩ := ih m2 c2 hkeys2 hdeps2
      (fun x hx => hmem x (List.mem_cons_of_mem _ hx))
    refine ⟨r, ?_⟩
    rw [runLoop, hpt]
    exact hr

end RunLemmas

/-- C7: `run()` never raises for ordinary task-body failures.  On a
`Pipeline` whose dependency ids all name registered tasks, `run()`
returns a completed `DAGRun` (an `Except.ok` value) for every shared
context, every clock, and whatever the task bodies do — bodies signal
failure through `Except.error` results, which the engine records on the
task instead of propagating. -/
theorem run_never_raises {p : Pipeline α} (hC : ClosedDeps p.tasks)
    (ctx : List (String × α)) (c : Nat) :
    ∃ r, runPipeline p ctx c = Except.ok r := by
  obtain ⟨⟨fin, cf⟩, hok⟩ := runLoop_total hC ctx (execOrderAux p.tasks)
    p.tasks (c + 1 + 1) rfl (fun _ => rfl)
    (fun x hx => order_keys p.tasks x hx)
  cases hrp : runPipeline p ctx c with
  | ok r => exact ⟨r, rfl⟩
  | error e =>
    exfalso
    unfold runPipeline at hrp
    rw [copies_eq] at hrp
    simp only [] at hrp
    split at hrp
    · rename_i e' heq
      rw [getExecutionOrder] at heq
      rw [hok] at heq
      cases heq
    · cases hrp

/-- Witness for C7: a closed four-task pipeline runs to an `ok` result. -/
theorem run_never_raises_witness :
    ClosedDeps PDaily.tasks ∧
    ∃ r, runPipeline PDaily [] 0 = Except.ok r := by
  have hC : ClosedDeps PDaily.tasks := closedDeps_of_closedB (by decide)
  exact ⟨hC, run_never_raises hC [] 0⟩

/-- C10: a successful `run()` leaves the registered task definitions
unchanged — the returned `Pipeline` state differs from the input only by
the appended `DAGRun` — so tasks registered as `PENDING` with unset
result, error and timestamps still are afterwards, and the definition can
be reused across runs. -/
theorem run_preserves_pipeline_tasks {p : Pipeline α}
    {ctx : List (String × α)} {c : Nat} {dr : DAGRun α} {p' : Pipeline α}
    (hrun : runPipeline p ctx c = Except.ok (dr, p'))
    (hinit : ∀ k t, p.tasks.lookup k = some t →
      t.status = TaskStatus.pending ∧ t.result = none ∧ t.error = none ∧
      t.started_at = none ∧ t.completed_at = none) :
    p'.tasks = p.tasks ∧ p'.runs = p.runs ++ [dr] ∧
    ∀ k t, p'.tasks.lookup k = some t →
      t.status = TaskStatus.pending ∧ t.result = none ∧ t.error = none ∧
      t.started_at = none ∧ t.completed_at = none := by
  obtain ⟨fin, cf, _, _, _, htasks, hruns⟩ := runPipeline_ok_elim hrun
  exact ⟨htasks, hruns, fun k t h => hinit k t (htasks ▸ h)⟩

/-- Witness for C10 at the four-task pipeline: the task table is
unchanged and still all-`PENDING` after a run. -/
theorem run_preserves_pipeline_tasks_witness :
    ∃ dr p', runPipeline PDaily [] 0 = Except.ok (dr, p') ∧
      (p'.tasks = PDaily.tasks ∧ p'.runs = PDaily.runs ++ [dr] ∧
       ∀ k t, p'.tasks.lookup k = some t →
         t.status = TaskStatus.pending ∧ t.result = none ∧
         t.error = none ∧ t.started_at = none ∧
         t.completed_at = none) := by
  have hinit : ∀ k t, PDaily.tasks.lookup k = some t →
      t.status = TaskStatus.pending ∧ t.result = none ∧ t.error = none ∧
      t.started_at = none ∧ t.completed_at = none := by
    intro k t h
    have hall := forall_lookup_of_all (f := fun pr =>
      decide (pr.2.status = TaskStatus.pending ∧ pr.2.result = none ∧
        pr.2.error = none ∧ pr.2.started_at = none ∧
        pr.2.completed_at = none)) (by decide) k t h
    simpa using hall
  refine ⟨_, _, rfl, ?_⟩
  exact run_preserves_pipeline_tasks rfl hinit

/-- C2 (divergence witness): the cyclic pipeline `PCycle`
(`A` ↔ `B`, plus an independent `C`) is not rejected: ordering silently
emits all three ids, `run()` raises nothing, executes `C` to `SUCCESS`
(result 7), leaves the cycle members merely `SKIPPED`, and even reports
overall `SUCCESS`. -/
theorem cycle_not_rejected :
    getExecutionOrder PCycle = ["B", "A", "C"] ∧
    runErrorOf PCycle [] 0 = none ∧
    taskStatusAfter PCycle [] 0 "C" = some TaskStatus.success ∧
    taskResultAfter PCycle [] 0 "C" = some (some 7) ∧
    taskStatusAfter PCycle [] 0 "A" = some TaskStatus.skipped ∧
    taskStatusAfter PCycle [] 0 "B" = some TaskStatus.skipped ∧
    overallAfter PCycle [] 0 = some TaskStatus.success := by
  decide

/-- C3 (divergence witness): `run()` never writes task results into the
shared context.  In `PCtx`, task `t2` depends on `t1` and reads the
context key `"t1"`; `t1` succeeds with result 1, yet `t2`'s body sees no
such key on any attempt and the task ends `FAILED` with error
"missing t1", so the run ends `FAILED`. -/
theorem context_not_propagated :
    taskStatusAfter PCtx [] 0 "t1" = some TaskStatus.success ∧
    taskResultAfter PCtx [] 0 "t1" = some (some 1) ∧
    taskStatusAfter PCtx [] 0 "t2" = some TaskStatus.failed ∧
    taskErrorAfter PCtx [] 0 "t2" = some (some "missing t1") ∧
    overallAfter PCtx [] 0 = some TaskStatus.failed := by
  decide

/-- C4: in a successful run of an acyclic, closed pipeline, a task's
final status is `SKIPPED` exactly when at least one of its dependencies
did not end in terminal state `SUCCESS` in the final record (a `SKIPPED`
or `FAILED` dependency both fail the gate, so skip propagates through
the graph). -/
theorem skip_iff_dependency_not_success {p : Pipeline α}
    {ctx : List (String × α)} {c : Nat} {dr : DAGRun α} {p' : Pipeline α}
    (hA : Acyclic p.tasks) (hC : ClosedDeps p.tasks)
    (hrun : runPipeline p ctx c = Except.ok (dr, p'))
    {tid : String} {t : Task α} (ht : dr.tasks.lookup tid = some t) :
    (t.status = TaskStatus.skipped ↔ ∃ d, d ∈ t.dependencies ∧
      ∃ td, dr.tasks.lookup d = some td ∧
        td.status ≠ TaskStatus.success) := by
  have hkeys := run_keys hrun
  have hkey_p : IsKey p.tasks tid := by
    rw [isKey_iff_mem_keys, ← hkeys]
    exact isKey_iff_mem_keys.mp ⟨t, ht⟩
  obtain ⟨t0, h0⟩ := hkey_p
  obtain ⟨g, c1, hbind, hgatef⟩ := run_task_final hrun h0
  rw [ht] at hbind
  have hteq : t = (if g then (runAttempts ctx (startRun t0 c1) 0
      t0.retries (c1 + 1)).1 else skipTask t0) := by
    simpa using hbind
  have hiff := hgatef hA hC
  have hdeps_eq : t.dependencies = t0.dependencies := by
    rw [hteq]
    cases g with
    | false => rfl
    | true =>
      simp only [if_true]
      rw [runAttempts_deps]
      rfl
  cases g with
  | false =>
    apply iff_of_true
    · rw [hteq]
      rfl
    · have hni : ¬ ∀ d, d ∈ t0.dependencies →
          ∃ td, dr.tasks.lookup d = some td ∧
            td.status = TaskStatus.success := by
        intro hall
        have : False := by
          have hgt := hiff.mpr hall
          cases hgt
        exact this
      push_neg at hni
      obtain ⟨d, hd, hnall⟩ := hni
      have hkd : IsKey dr.tasks d := by
        rw [isKey_iff_mem_keys, hkeys]
        exact isKey_iff_mem_keys.mp (hC tid d ⟨t0, h0, hd⟩)
      obtain ⟨td, htd⟩ := hkd
      refine ⟨d, hdeps_eq ▸ hd, td, htd, ?_⟩
      intro hsucc
      exact hnall td htd hsucc
  | true =>
    apply iff_of_false
    · rw [hteq]
      simp only [if_true]
      rcases runAttempts_status ctx (startRun t0 c1) 0 t0.retries
        (c1 + 1) with h | h | h <;> rw [h]
      · intro hcon
        cases hcon
      · intro hcon
        cases hcon
      · intro hcon
        cases hcon
    · rintro ⟨d, hd, td, htd, hne⟩
      rw [hdeps_eq] at hd
      obtain ⟨td', htd', hsucc⟩ := hiff.mp rfl d hd
      rw [htd] at htd'
      obtain rfl : td = td' := by simpa using htd'
      exact hne hsucc

/-- Witness for C4: the skip-propagation scenario `A` fails, `B` depends
on `A`, `C` depends on `B`; after `run()` the statuses are
Failed/Skipped/Skipped, the run is `FAILED`, and the gate
characterisation holds for `B`. -/
theorem skip_iff_dependency_not_success_witness :
    taskStatusAfter PChain [] 0 "A" = some TaskStatus.failed ∧
    taskStatusAfter PChain [] 0 "B" = some TaskStatus.skipped ∧
    taskStatusAfter PChain [] 0 "C" = some TaskStatus.skipped ∧
    overallAfter PChain [] 0 = some TaskStatus.failed ∧
    ∃ dr p' t, runPipeline PChain [] 0 = Except.ok (dr, p') ∧
      dr.tasks.lookup "B" = some t ∧
      (t.status = TaskStatus.skipped ↔ ∃ d, d ∈ t.dependencies ∧
        ∃ td, dr.tasks.lookup d = some td ∧
          td.status ≠ TaskStatus.success) := by
  refine ⟨by decide, by decide, by decide, by decide, ?_⟩
  have hA : Acyclic PChain.tasks :=
    acyclic_of_rankB PChain.tasks rankChain (by decide)
  have hC : ClosedDeps PChain.tasks := closedDeps_of_closedB (by decide)
  refine ⟨_, _, _, rfl, rfl, ?_⟩
  exact @skip_iff_dependency_not_success Nat PChain [] 0 _ _ hA hC rfl
    "B" _ rfl

/-- C6: a task whose gate passes (all dependencies ended `SUCCESS`) and
whose body fails on every one of its `retries` attempts ends `FAILED`,
with `error` set to the text of the last attempt (attempt index
`retries - 1`, so exactly `retries` invocations were made) and
`completed_at` set. -/
theorem retry_exhaustion {p : Pipeline α} {ctx : List (String × α)}
    {c : Nat} {dr : DAGRun α} {p' : Pipeline α}
    (hA : Acyclic p.tasks) (hC : ClosedDeps p.tasks)
    (hrun : runPipeline p ctx c = Except.ok (dr, p'))
    {tid : String} {t0 : Task α} (h0 : p.tasks.lookup tid = some t0)
    (hret : 1 ≤ t0.retries) (errf : Nat → String)
    (hfail : ∀ i c', t0.callable i c' = Except.error (errf i))
    (hgate : ∀ d, d ∈ t0.dependencies →
      ∃ td, dr.tasks.lookup d = some td ∧
        td.status = TaskStatus.success) :
    ∃ t, dr.tasks.lookup tid = some t ∧
      t.status = TaskStatus.failed ∧
      t.error = some (errf (t0.retries - 1)) ∧
      t.completed_at.isSome = true := by
  obtain ⟨g, c1, hbind, hgatef⟩ := run_task_final hrun h0
  have hg : g = true := (hgatef hA hC).mpr hgate
  subst hg
  rw [if_pos rfl] at hbind
  rw [runAttempts_all_fail ctx errf t0.retries (startRun t0 c1) 0 (c1 + 1)
    hret (fun i _ _ => hfail i ctx)] at hbind
  have harith : 0 + t0.retries - 1 = t0.retries - 1 := by omega
  rw [harith] at hbind
  exact ⟨_, hbind, rfl, rfl, rfl⟩

/-- Witness for C6: a single gate-passing task with `retries = 2` whose
body fails on every attempt ends `FAILED` with the second attempt's
error text ("boom1") and a completion time. -/
theorem retry_exhaustion_witness :
    taskStatusAfter PExhaust [] 0 "t" = some TaskStatus.failed ∧
    taskErrorAfter PExhaust [] 0 "t" = some (some "boom1") ∧
    ∃ dr p', runPipeline PExhaust [] 0 = Except.ok (dr, p') ∧
      ∃ t, dr.tasks.lookup "t" = some t ∧
        t.status = TaskStatus.failed ∧
        t.error = some ("boom" ++ toString (2 - 1)) ∧
        t.completed_at.isSome = true := by
  refine ⟨by decide, by decide, ?_⟩
  have hA : Acyclic PExhaust.tasks :=
    acyclic_of_rankB PExhaust.tasks (fun _ => 0) (by decide)
  have hC : ClosedDeps PExhaust.tasks := closedDeps_of_closedB (by decide)
  refine ⟨_, _, rfl, ?_⟩
  exact @retry_exhaustion Nat PExhaust [] 0 _ _ hA hC rfl "t"
    (mkTask "t" [] 2 (fun i _ => Except.error ("boom" ++ toString i)))
    rfl (by decide) (fun i => "boom" ++ toString i) (fun i c' => rfl)
    (fun d hd => absurd hd (List.not_mem_nil d))

theorem runAttempts_failed_error (ctx : List (String × α)) :
    ∀ (t : Task α) (a n c : Nat), t.status ≠ TaskStatus.failed →
      (runAttempts ctx t a n c).1.status = TaskStatus.failed →
      ∃ e, (runAttempts ctx t a n c).1.error = some e := by
  intro t a n
  induction n generalizing t a with
  | zero =>
    intro c hne hst
    exact absurd hst hne
  | succ m ih =>
    intro c hne hst
    rw [runAttempts] at hst ⊢
    cases hcall : t.callable a ctx with
    | ok r =>
      rw [hcall] at hst
      simp only [] at hst
      cases hst
    | error e =>
      rw [hcall] at hst
      simp only [] at hst ⊢
      by_cases hm : m = 0
      · subst hm
        rw [if_pos rfl]
        exact ⟨e, rfl⟩
      · rw [if_neg hm] at hst ⊢
        exact ih _ _ _ hne hst

/-- C9 (amended): the `error` field is stale rather than
"set only on Failed": a task that is `SKIPPED`, or that succeeds on its
very first invocation, ends with `error` still unset (given it was
registered unset), and a `FAILED` task always has `error` set; but (see
the counterexample) a task that succeeds after a failed attempt keeps
the last failed attempt's error text. -/
theorem error_only_after_failed_attempt {p : Pipeline α}
    {ctx : List (String × α)} {c : Nat} {dr : DAGRun α} {p' : Pipeline α}
    (hrun : runPipeline p ctx c = Except.ok (dr, p'))
    {tid : String} {t0 : Task α} (h0 : p.tasks.lookup tid = some t0)
    (herr0 : t0.error = none) {t : Task α}
    (ht : dr.tasks.lookup tid = some t) :
    (t.status = TaskStatus.skipped → t.error = none) ∧
    ((∃ r, t0.callable 0 ctx = Except.ok r) → t.error = none) ∧
    (t.status = TaskStatus.failed → ∃ e, t.error = some e) := by
  obtain ⟨g, c1, hbind, _⟩ := run_task_final hrun h0
  rw [ht] at hbind
  cases g with
  | false =>
    have hteq : t = skipTask t0 := by simpa using hbind
    refine ⟨fun _ => ?_, fun _ => ?_, fun hf => ?_⟩
    · rw [hteq]
      exact herr0
    · rw [hteq]
      exact herr0
    · rw [hteq] at hf
      exact absurd hf (by simp [skipTask])
  | true =>
    have hteq : t = (runAttempts ctx (startRun t0 c1) 0 t0.retries
        (c1 + 1)).1 := by simpa using hbind
    refine ⟨fun hsk => ?_, fun hok => ?_, fun hf => ?_⟩
    · exfalso
      rw [hteq] at hsk
      rcases runAttempts_status ctx (startRun t0 c1) 0 t0.retries
        (c1 + 1) with h | h | h <;> rw [hsk] at h
      · exact absurd h.symm (by simp [startRun])
      · cases h
      · cases h
    · rw [hteq]
      obtain ⟨r, hokr⟩ := hok
      cases hnret : t0.retries with
      | zero => exact herr0
      | succ m =>
        rw [runAttempts_first_ok ctx (startRun t0 c1) 0 (m + 1)
          (c1 + 1) (by omega) hokr]
        exact herr0
    · rw [hteq] at hf ⊢
      exact runAttempts_failed_error ctx (startRun t0 c1) 0 t0.retries
        (c1 + 1) (by simp [startRun]) hf

/-- Witness for C9 (amended) at `PChain`'s task `B`: it is skipped and
its error stays unset. -/
theorem error_only_after_failed_attempt_witness :
    ∃ dr p', runPipeline PChain [] 0 = Except.ok (dr, p') ∧
      ∃ t, dr.tasks.lookup "B" = some t ∧
        t.status = TaskStatus.skipped ∧ t.error = none ∧
        ((t.status = TaskStatus.skipped → t.error = none) ∧
         ((∃ r, (constTask "B" ["A"] 0).callable 0 [] = Except.ok r) →
           t.error = none) ∧
         (t.status = TaskStatus.failed → ∃ e, t.error = some e)) := by
  refine ⟨_, _, rfl, _, rfl, by decide, by decide, ?_⟩
  exact @error_only_after_failed_attempt Nat PChain [] 0 _ _ rfl "B"
    (constTask "B" ["A"] 0) rfl rfl _ rfl

/-- C9 (counterexample to the claim as stated): a task that fails its
first attempt and succeeds on the retry ends with final status
`SUCCESS`, result 5, and yet `error` still set to the first attempt's
text "boom0" — a Success execution whose error field is set. -/
theorem success_keeps_stale_error :
    taskStatusAfter PRetry [] 0 "t" = some TaskStatus.success ∧
    taskResultAfter PRetry [] 0 "t" = some (some 5) ∧
    taskErrorAfter PRetry [] 0 "t" = some (some "boom0") := by
  decide

/-- C8: for every completed run in which every task has a positive retry
budget (the data model's invariant, default 3), every task ends in a
terminal state, the run-level status is two-valued, and it is `SUCCESS`
iff no task is `FAILED` — equivalently, iff every task ended `SUCCESS`
or `SKIPPED` — the status being computed once from the final record. -/
theorem overall_status_iff {p : Pipeline α} {ctx : List (String × α)}
    {c : Nat} {dr : DAGRun α} {p' : Pipeline α}
    (hrun : runPipeline p ctx c = Except.ok (dr, p'))
    (hnd : (p.tasks.map Prod.fst).Nodup)
    (hpos : ∀ k t, p.tasks.lookup k = some t → 1 ≤ t.retries) :
    (∀ k t, dr.tasks.lookup k = some t →
      (t.status = TaskStatus.success ∨ t.status = TaskStatus.failed ∨
       t.status = TaskStatus.skipped)) ∧
    (dr.status = TaskStatus.success ∨ dr.status = TaskStatus.failed) ∧
    (dr.status = TaskStatus.success ↔
      ∀ k t, dr.tasks.lookup k = some t →
        t.status ≠ TaskStatus.failed) ∧
    (dr.status = TaskStatus.success ↔
      ∀ k t, dr.tasks.lookup k = some t →
        (t.status = TaskStatus.success ∨
         t.status = TaskStatus.skipped)) := by
  obtain ⟨fin, cf, hrl, hdrt, hstat, _, _⟩ := runPipeline_ok_elim hrun
  have hfkeys : fin.map Prod.fst = p.tasks.map Prod.fst :=
    runLoop_keys hrl
  have hfnd : (fin.map Prod.fst).Nodup := by
    rw [hfkeys]
    exact hnd
  have hterm : ∀ k t, dr.tasks.lookup k = some t →
      (t.status = TaskStatus.success ∨ t.status = TaskStatus.failed ∨
       t.status = TaskStatus.skipped) := by
    intro k t hk
    have hkey_p : IsKey p.tasks k := by
      rw [isKey_iff_mem_keys, ← hfkeys]
      rw [hdrt] at hk
      exact isKey_iff_mem_keys.mp ⟨t, hk⟩
    obtain ⟨t0, h0⟩ := hkey_p
    obtain ⟨g, c1, hbind, _⟩ := run_task_final hrun h0
    rw [hk] at hbind
    have hteq : t = (if g then (runAttempts ctx (startRun t0 c1) 0
        t0.retries (c1 + 1)).1 else skipTask t0) := by simpa using hbind
    cases g with
    | false =>
      rw [hteq]
      exact Or.inr (Or.inr rfl)
    | true =>
      rw [hteq]
      simp only [if_true]
      rcases runAttempts_terminal ctx (startRun t0 c1) 0 t0.retries
        (c1 + 1) (hpos k t0 h0) with h | h
      · exact Or.inl h
      · exact Or.inr (Or.inl h)
  have hall_iff : (fin.all (fun pr =>
      pr.2.status == TaskStatus.success ||
      pr.2.status == TaskStatus.skipped) = true) ↔
      ∀ k t, dr.tasks.lookup k = some t →
        (t.status = TaskStatus.success ∨
         t.status = TaskStatus.skipped) := by
    rw [hdrt]
    constructor
    · intro hall k t hk
      have h := List.all_eq_true.mp hall (k, t) (lookup_mem hk)
      simpa using h
    · intro hlk
      apply List.all_eq_true.mpr
      rintro ⟨k, t⟩ hmem
      have hk := lookup_of_mem_of_nodup hfnd hmem
      have h := hlk k t hk
      simpa using h
  have hsucc_iff : dr.status = TaskStatus.success ↔
      (fin.all (fun pr => pr.2.status == TaskStatus.success ||
        pr.2.status == TaskStatus.skipped) = true) := by
    rw [hstat]
    by_cases hall : fin.all (fun pr =>
        pr.2.status == TaskStatus.success ||
        pr.2.status == TaskStatus.skipped) = true
    · rw [if_pos hall]
      exact iff_of_true rfl hall
    · rw [if_neg hall]
      refine iff_of_false ?_ hall
      intro hh
      cases hh
  refine ⟨hterm, ?_, ?_, ?_⟩
  · rw [hstat]
    by_cases hall : fin.all (fun pr =>
        pr.2.status == TaskStatus.success ||
        pr.2.status == TaskStatus.skipped) = true
    · rw [if_pos hall]
      exact Or.inl rfl
    · rw [if_neg hall]
      exact Or.inr rfl
  · rw [hsucc_iff, hall_iff]
    constructor
    · intro hall k t hk hf
      rcases hall k t hk with h | h <;> rw [hf] at h <;> cases h
    · intro hnf k t hk
      rcases hterm k t hk with h | h | h
      · exact Or.inl h
      · exact absurd h (hnf k t hk)
      · exact Or.inr h
  · rw [hsucc_iff]
    exact hall_iff

/-- Witness for C8 at the skip-propagation pipeline: the conclusion holds
at a concrete run (whose overall status is `FAILED` because `A`
failed). -/
theorem overall_status_iff_witness :
    (PChain.tasks.map Prod.fst).Nodup ∧
    ∃ dr p', runPipeline PChain [] 0 = Except.ok (dr, p') ∧
      ((∀ k t, dr.tasks.lookup k = some t →
        (t.status = TaskStatus.success ∨ t.status = TaskStatus.failed ∨
         t.status = TaskStatus.skipped)) ∧
       (dr.status = TaskStatus.success ∨
        dr.status = TaskStatus.failed) ∧
       (dr.status = TaskStatus.success ↔
         ∀ k t, dr.tasks.lookup k = some t →
           t.status ≠ TaskStatus.failed) ∧
       (dr.status = TaskStatus.success ↔
         ∀ k t, dr.tasks.lookup k = some t →
           (t.status = TaskStatus.success ∨
            t.status = TaskStatus.skipped))) := by
  have hnd : (PChain.tasks.map Prod.fst).Nodup := by decide
  have hpos : ∀ k t, PChain.tasks.lookup k = some t → 1 ≤ t.retries := by
    intro k t h
    have hall := forall_lookup_of_all
      (f := fun pr => decide (1 ≤ pr.2.retries)) (by decide) k t h
    simpa using hall
  refine ⟨hnd, _, _, rfl, ?_⟩
  exact @overall_status_iff Nat PChain [] 0 _ _ rfl hnd hpos

/-- C5 (divergence witness): a dependency id naming no registered task is
not rejected at ordering time — `_get_execution_order` silently emits
both ids — and `run()` then crashes mid-run with a `KeyError` after the
first task already executed to `SUCCESS`. -/
theorem unknown_dependency_midrun_crash :
    getExecutionOrder PGhost = ["t1", "t2"] ∧
    runPipeline PGhost [] 0 = Except.error "KeyError: ghost" ∧
    ∃ m cf, runLoop [] ["t1"] PGhost.tasks 2 = Except.ok (m, cf) ∧
      (m.lookup "t1").map Task.status = some TaskStatus.success := by
  refine ⟨by decide, rfl, ?_⟩
  refine ⟨_, _, rfl, ?_⟩
  decide

end DataPipeline
